import Mathlib

/-!
Shallow embedding of the histogram-conditioning subsystem of the repository
(`src/refiners/fluxion/adapters/histogram.py` and its callers), with theorems
settling the specification claims about it.

Conventions:
* Tensors of statically known rank are total functions over `Fin`-indexed
  shapes with rational entries; shape facts become typing facts.
* Fallible Python code is modelled with `Except`.
* The transcendental parts of scaled-dot-product attention (the exponential
  of softmax and the `1/sqrt d` logit scaling) are taken as parameters of the
  definitions; every theorem quantifies over them, so it holds in particular
  for the real exponential.
-/

namespace HistogramSpec

/-- `2 ** color_bits`, the number of bins per color axis
(`bins=2**self.color_bits` in `HistogramExtractor.histogramdd`). -/
def numBins (colorBits : ℕ) : ℕ := 2 ^ colorBits

theorem numBins_pos (colorBits : ℕ) : 0 < numBins colorBits :=
  Nat.pos_pow_of_pos colorBits (by norm_num)

/-- A 3D bin index `(r, g, b)` of the histogram cube. -/
abbrev Bin (colorBits : ℕ) :=
  Fin (numBins colorBits) × Fin (numBins colorBits) × Fin (numBins colorBits)

/-- One coordinate of `torch.histogramdd` binning with `N = 2**color_bits`
equal-width bins over the per-axis interval `[0, 2**color_bits]`: a value `v`
lands in bin `⌊v⌋` when `0 ≤ v < N`, the right edge `v = N` is included in the
last bin, and out-of-range values are not counted (`none`). -/
def binIndex (colorBits : ℕ) (v : ℚ) : Option (Fin (numBins colorBits)) :=
  if h : 0 ≤ v ∧ v < (numBins colorBits : ℚ) then
    some ⟨(⌊v⌋).toNat, by
      have h1 : (0 : ℤ) ≤ ⌊v⌋ := Int.floor_nonneg.mpr h.1
      have h2 : ⌊v⌋ < (numBins colorBits : ℤ) := Int.floor_lt.mpr (by exact_mod_cast h.2)
      omega⟩
  else if v = (numBins colorBits : ℚ) then
    some ⟨numBins colorBits - 1, by have := numBins_pos colorBits; omega⟩
  else
    none

/-- `torch.histogramdd` bin assignment of one RGB point: counted only when all
three coordinates are within range. -/
def bin3 (colorBits : ℕ) (p : ℚ × ℚ × ℚ) : Option (Bin colorBits) :=
  match binIndex colorBits p.1, binIndex colorBits p.2.1, binIndex colorBits p.2.2 with
  | some r, some g, some b => some (r, g, b)
  | _, _, _ => none

/-- A batch of RGB images in `(batch, channel, height, width)` layout, the
input layout of `HistogramExtractor`. -/
structure ImageBatch where
  B : ℕ
  H : ℕ
  W : ℕ
  pix : Fin B → Fin 3 → Fin H → Fin W → ℚ

/-- `fl.Permute(0, 2, 3, 1)`: reorder `(B, C, H, W)` to `(B, H, W, C)` so that
the innermost dimension holds the RGB coordinates of one pixel. -/
def permute0231 (x : ImageBatch) (b : Fin x.B) (i : Fin x.H) (j : Fin x.W) (c : Fin 3) : ℚ :=
  x.pix b c i j

/-- The row-major flattening of one image of the permuted batch into its list
of RGB points, as `torch.histogramdd` flattens all leading dimensions. -/
def pixelPoints (x : ImageBatch) (b : Fin x.B) : List (ℚ × ℚ × ℚ) :=
  (List.finRange (x.H * x.W)).map fun t =>
    let i : Fin x.H := ⟨t.val / x.W, by
      have ht := t.isLt
      rcases Nat.eq_zero_or_pos x.W with h | h
      · exact absurd ht (by simp [h])
      · exact (Nat.div_lt_iff_lt_mul h).mpr (by omega)⟩
    let j : Fin x.W := ⟨t.val % x.W, by
      have ht := t.isLt
      rcases Nat.eq_zero_or_pos x.W with h | h
      · exact absurd ht (by simp [h])
      · exact Nat.mod_lt _ h⟩
    (permute0231 x b i j 0, permute0231 x b i j 1, permute0231 x b i j 2)

/-- `HistogramExtractor.histogramdd` on one batch element: the count of pixels
falling in each 3D bin, divided by `num_pixels = x.shape[1] * x.shape[2]`
(the height-times-width of the permuted tensor). -/
def histogramOfPoints (colorBits : ℕ) (points : List (ℚ × ℚ × ℚ)) (numPixels : ℕ)
    (k : Bin colorBits) : ℚ :=
  ((points.countP fun p => decide (bin3 colorBits p = some k) : ℕ) : ℚ) / (numPixels : ℚ)

/-- The full extractor `fl.Chain(fl.Permute(0, 2, 3, 1), fl.Lambda(histogramdd))`:
a stack of per-image histograms, one `Bin → ℚ` cube per batch element.  The
`(batch, S, S, S)` output shape is carried by the type. -/
def extractorHist (colorBits : ℕ) (x : ImageBatch) (b : Fin x.B) (k : Bin colorBits) : ℚ :=
  histogramOfPoints colorBits (pixelPoints x b) (x.H * x.W) k

/-- A coordinate value strictly inside the binning range is assigned a bin. -/
theorem binIndex_isSome_of_range (colorBits : ℕ) (v : ℚ)
    (h0 : 0 ≤ v) (h1 : v < (numBins colorBits : ℚ)) :
    (binIndex colorBits v).isSome := by
  unfold binIndex
  rw [dif_pos ⟨h0, h1⟩]
  rfl

/-- A point with all three coordinates inside the range is counted. -/
theorem bin3_isSome_of_range (colorBits : ℕ) (p : ℚ × ℚ × ℚ)
    (h : (0 ≤ p.1 ∧ p.1 < (numBins colorBits : ℚ)) ∧
         (0 ≤ p.2.1 ∧ p.2.1 < (numBins colorBits : ℚ)) ∧
         (0 ≤ p.2.2 ∧ p.2.2 < (numBins colorBits : ℚ))) :
    (bin3 colorBits p).isSome := by
  have h1 := binIndex_isSome_of_range colorBits p.1 h.1.1 h.1.2
  have h2 := binIndex_isSome_of_range colorBits p.2.1 h.2.1.1 h.2.1.2
  have h3 := binIndex_isSome_of_range colorBits p.2.2 h.2.2.1 h.2.2.2
  unfold bin3
  rcases ho1 : binIndex colorBits p.1 with _ | r
  · rw [ho1] at h1; simp at h1
  rcases ho2 : binIndex colorBits p.2.1 with _ | g
  · rw [ho2] at h2; simp at h2
  rcases ho3 : binIndex colorBits p.2.2 with _ | b
  · rw [ho3] at h3; simp at h3
  simp

/-- Summing the per-bin counts over all bins counts exactly the in-range points. -/
theorem sum_countP_bins (colorBits : ℕ) (points : List (ℚ × ℚ × ℚ)) :
    ∑ k : Bin colorBits, points.countP (fun p => decide (bin3 colorBits p = some k)) =
      points.countP (fun p => (bin3 colorBits p).isSome) := by
  induction points with
  | nil => simp
  | cons a l ih =>
    simp only [List.countP_cons]
    rw [Finset.sum_add_distrib, ih]
    congr 1
    rcases hb : bin3 colorBits a with _ | k0
    · simp [hb]
    · simp [Finset.sum_ite_eq]

/-- The number of flattened points of one image equals `H * W`. -/
theorem pixelPoints_length (x : ImageBatch) (b : Fin x.B) :
    (pixelPoints x b).length = x.H * x.W := by
  simp [pixelPoints]

/-- Claim C3.  `HistogramExtractor` output is non-negative (always), and for
every image batch whose channel values lie in the range `[0, 2^color_bits)`
consistently used for binning, every batch element's bins sum to `1`
(hence to `1.0` within `1e-4`); the `(batch, S, S, S)` shape is the type of
`extractorHist`. -/
theorem histogram_extractor_normalized (colorBits : ℕ) (x : ImageBatch) :
    (∀ (b : Fin x.B) (k : Bin colorBits), 0 ≤ extractorHist colorBits x b k) ∧
    (0 < x.H * x.W →
      (∀ (b : Fin x.B) (c : Fin 3) (i : Fin x.H) (j : Fin x.W),
        0 ≤ x.pix b c i j ∧ x.pix b c i j < (numBins colorBits : ℚ)) →
      ∀ b : Fin x.B, ∑ k : Bin colorBits, extractorHist colorBits x b k = 1) := by
  constructor
  · intro b k
    unfold extractorHist histogramOfPoints
    positivity
  · intro hpix hrange b
    unfold extractorHist histogramOfPoints
    rw [← Finset.sum_div]
    rw [show ∑ k : Bin colorBits,
          ((pixelPoints x b).countP (fun p => decide (bin3 colorBits p = some k)) : ℚ) =
        ((∑ k : Bin colorBits,
          (pixelPoints x b).countP (fun p => decide (bin3 colorBits p = some k)) : ℕ) : ℚ)
      from (Nat.cast_sum _ _).symm]
    rw [sum_countP_bins]
    have hall : ∀ p ∈ pixelPoints x b, (bin3 colorBits p).isSome := by
      intro p hp
      unfold pixelPoints at hp
      rw [List.mem_map] at hp
      obtain ⟨t, _, rfl⟩ := hp
      exact bin3_isSome_of_range colorBits _
        ⟨hrange b 0 _ _, hrange b 1 _ _, hrange b 2 _ _⟩
    rw [List.countP_eq_length.mpr (by intro p hp; simpa using hall p hp)]
    rw [pixelPoints_length]
    have hne : ((x.H * x.W : ℕ) : ℚ) ≠ 0 := by
      exact_mod_cast Nat.pos_iff_ne_zero.mp hpix
    exact div_self hne

/-- Concrete witness image: one 1×1 pixel, all channels `1/2`. -/
def witnessImageMid : ImageBatch :=
  ⟨1, 1, 1, fun _ _ _ _ => 1 / 2⟩

/-- Witness for C3 at a concrete one-pixel image with `color_bits = 1`. -/
theorem histogram_extractor_normalized_witness :
    (∀ (b : Fin witnessImageMid.B) (k : Bin 1), 0 ≤ extractorHist 1 witnessImageMid b k) ∧
    (∀ b : Fin witnessImageMid.B, ∑ k : Bin 1, extractorHist 1 witnessImageMid b k = 1) :=
  ⟨(histogram_extractor_normalized 1 witnessImageMid).1,
   (histogram_extractor_normalized 1 witnessImageMid).2 (by show (0 : ℕ) < 1 * 1; norm_num)
     (by
       intro b c i j
       constructor
       · show (0 : ℚ) ≤ 1 / 2
         norm_num
       · show (1 / 2 : ℚ) < (numBins 1 : ℚ)
         norm_num [numBins])⟩

/-- The lowest-index histogram bin `(0, 0, 0)`. -/
def lowBin (colorBits : ℕ) : Bin colorBits :=
  ⟨⟨0, numBins_pos colorBits⟩, ⟨0, numBins_pos colorBits⟩, ⟨0, numBins_pos colorBits⟩⟩

/-- The highest-index histogram bin `(S-1, S-1, S-1)`. -/
def topBin (colorBits : ℕ) : Bin colorBits :=
  ⟨⟨numBins colorBits - 1, by have := numBins_pos colorBits; omega⟩,
   ⟨numBins colorBits - 1, by have := numBins_pos colorBits; omega⟩,
   ⟨numBins colorBits - 1, by have := numBins_pos colorBits; omega⟩⟩

theorem binIndex_zero (colorBits : ℕ) :
    binIndex colorBits 0 = some ⟨0, numBins_pos colorBits⟩ := by
  unfold binIndex
  rw [dif_pos ⟨le_refl 0, by exact_mod_cast numBins_pos colorBits⟩]
  simp

theorem binIndex_top (colorBits : ℕ) :
    binIndex colorBits (numBins colorBits : ℚ) =
      some ⟨numBins colorBits - 1, by have := numBins_pos colorBits; omega⟩ := by
  unfold binIndex
  rw [dif_neg (by rintro ⟨-, h⟩; exact lt_irrefl _ h)]
  rw [if_pos rfl]

/-- A uniform-color image puts all its mass in the bin of its color. -/
theorem extractorHist_const (colorBits : ℕ) (x : ImageBatch) (v : ℚ)
    (hv : ∀ b c i j, x.pix b c i j = v) (k0 : Bin colorBits)
    (hk : bin3 colorBits (v, v, v) = some k0) (hp : 0 < x.H * x.W) :
    ∀ (b : Fin x.B) (k : Bin colorBits),
      extractorHist colorBits x b k = if k = k0 then 1 else 0 := by
  intro b k
  have hpts : ∀ p ∈ pixelPoints x b, p = (v, v, v) := by
    intro p hp2
    unfold pixelPoints at hp2
    rw [List.mem_map] at hp2
    obtain ⟨t, -, rfl⟩ := hp2
    simp [permute0231, hv]
  unfold extractorHist histogramOfPoints
  by_cases hkk : k = k0
  · subst hkk
    rw [List.countP_eq_length.mpr (by intro p hp2; rw [hpts p hp2]; simpa using hk)]
    rw [pixelPoints_length, if_pos rfl]
    exact div_self (by exact_mod_cast Nat.pos_iff_ne_zero.mp hp)
  · rw [List.countP_eq_zero.mpr (by
      intro p hp2
      rw [hpts p hp2]
      simp only [hk, decide_eq_true_eq, Option.some.injEq]
      exact fun h => hkk h.symm)]
    rw [if_neg hkk]
    simp

/-- Claim C6.  An all-minimum-value image batch (every channel `0`, the bottom
of the binning range) yields mass `1.0` exactly at bin `(0,0,0)`; an
all-maximum-value batch (every channel at the top of the range, i.e. the
included right edge `2^color_bits`) yields mass `1.0` exactly at bin
`(S-1, S-1, S-1)`. -/
theorem histogram_extractor_extremes (colorBits : ℕ) (x : ImageBatch)
    (hp : 0 < x.H * x.W) :
    ((∀ b c i j, x.pix b c i j = 0) →
      ∀ (b : Fin x.B) (k : Bin colorBits),
        extractorHist colorBits x b k = if k = lowBin colorBits then 1 else 0) ∧
    ((∀ b c i j, x.pix b c i j = (numBins colorBits : ℚ)) →
      ∀ (b : Fin x.B) (k : Bin colorBits),
        extractorHist colorBits x b k = if k = topBin colorBits then 1 else 0) := by
  constructor
  · intro hv
    refine extractorHist_const colorBits x 0 hv (lowBin colorBits) ?_ hp
    unfold bin3
    rw [show ((0 : ℚ), (0 : ℚ), (0 : ℚ)).1 = (0 : ℚ) from rfl]
    rw [binIndex_zero]
    rfl
  · intro hv
    refine extractorHist_const colorBits x (numBins colorBits : ℚ) hv (topBin colorBits) ?_ hp
    unfold bin3
    rw [show (((numBins colorBits : ℚ)), ((numBins colorBits : ℚ)), ((numBins colorBits : ℚ))).1 =
      ((numBins colorBits : ℚ)) from rfl]
    rw [binIndex_top]
    rfl

/-- Concrete all-black one-pixel image. -/
def witnessImageZero : ImageBatch := ⟨1, 1, 1, fun _ _ _ _ => 0⟩

/-- Concrete one-pixel image at the top of the binning range for `color_bits = 1`. -/
def witnessImageTop : ImageBatch := ⟨1, 1, 1, fun _ _ _ _ => 2⟩

/-- Witness for C6 at concrete one-pixel images with `color_bits = 1`. -/
theorem histogram_extractor_extremes_witness :
    extractorHist 1 witnessImageZero ⟨0, Nat.one_pos⟩ (lowBin 1) = 1 ∧
    extractorHist 1 witnessImageTop ⟨0, Nat.one_pos⟩ (topBin 1) = 1 := by
  constructor
  · have h := (histogram_extractor_extremes 1 witnessImageZero
      (by show (0 : ℕ) < 1 * 1; norm_num)).1
      (by intro b c i j; rfl) ⟨0, Nat.one_pos⟩ (lowBin 1)
    rw [if_pos rfl] at h
    exact h
  · have h := (histogram_extractor_extremes 1 witnessImageTop
      (by show (0 : ℕ) < 1 * 1; norm_num)).2
      (by intro b c i j; show (2 : ℚ) = (numBins 1 : ℚ); norm_num [numBins]) ⟨0, Nat.one_pos⟩ (topBin 1)
    rw [if_pos rfl] at h
    exact h

/-- A histogram tensor of shape `(batch, S, S, S)` with `S = 2^color_bits`,
the input contract of `HistogramEncoder.compute_histogram_embedding`. -/
structure HistoTensor (colorBits : ℕ) where
  batch : ℕ
  val : Fin batch → Fin (numBins colorBits) → Fin (numBins colorBits) →
    Fin (numBins colorBits) → ℚ

/-- `Tensor.numel`: the product of the shape `(batch, S, S, S)`. -/
def HistoTensor.numel {colorBits : ℕ} (x : HistoTensor colorBits) : ℕ :=
  x.batch * numBins colorBits ^ 3

/-- Row-major flattening of the entries, used to model elementwise equality. -/
def HistoTensor.entries {colorBits : ℕ} (x : HistoTensor colorBits) : List ℚ :=
  (List.finRange x.batch).flatMap fun b =>
    (List.finRange (numBins colorBits)).flatMap fun r =>
      (List.finRange (numBins colorBits)).flatMap fun g =>
        (List.finRange (numBins colorBits)).map fun bb => x.val b r g bb

/-- The Python-level errors the method can raise. -/
inductive PyErr where
  /-- `RuntimeError`: truthiness of a non-single-element boolean tensor
  (`Boolean value of Tensor with more than one element is ambiguous`), or a
  shape mismatch of the elementwise `==`. -/
  | runtimeAmbiguous : PyErr
  /-- `ValueError: Cannot compute histogram embedding for empty tensor`. -/
  | valueEmpty : PyErr
deriving DecidableEq

/-- `if x == negative_histogram:` where both sides are tensors: torch's `==`
is elementwise, and using the resulting boolean tensor as a branch condition
returns its value only when it has exactly one element; every other case
(more than one element, zero elements, or un-broadcastable shapes) raises a
`RuntimeError`. -/
def tensorIfTruthyEq {colorBits : ℕ} (x n : HistoTensor colorBits) : Except PyErr Bool :=
  if x.batch = n.batch ∧ x.numel = 1 then .ok (decide (x.entries = n.entries))
  else .error .runtimeAmbiguous

/-- The uniform fallback `(zeros_like(x) + 1.0) * 1 / numel`: every bin of a
same-shaped tensor holds `1 / x.numel()`. -/
def uniformFallback {colorBits : ℕ} (x : HistoTensor colorBits) : HistoTensor colorBits :=
  ⟨x.batch, fun _ _ _ _ => (0 + 1) * 1 / (x.numel : ℚ)⟩

/-- `HistogramEncoder.compute_histogram_embedding`, shallowly embedded over an
abstract encoder forward `encode` (the transformer encoder `self(...)`, whose
output batch elements concatenate along dim 0 as list append):
first computes the conditional embedding `self(x)`; then evaluates
`if x == negative_histogram:` (a `RuntimeError` for multi-element tensors when
a negative histogram is supplied, and `False` when it is `None`); then — when
no negative histogram was supplied — either raises a `ValueError` on an empty
input or synthesizes the uniform fallback; finally returns
`cat((negative_embedding, conditional_embedding), dim=0)`. -/
def compute_histogram_embedding {colorBits : ℕ} {E : Type}
    (encode : HistoTensor colorBits → List E) (x : HistoTensor colorBits)
    (negative_histogram : Option (HistoTensor colorBits)) : Except PyErr (List E) :=
  let conditional_embedding := encode x
  match negative_histogram with
  | some n =>
    match tensorIfTruthyEq x n with
    | .error e => .error e
    | .ok true => .ok (conditional_embedding ++ conditional_embedding)
    | .ok false => .ok (encode n ++ conditional_embedding)
  | none =>
    if x.numel = 0 then .error .valueEmpty
    else .ok (encode (uniformFallback x) ++ conditional_embedding)

/-- Claim C7.  The explicit empty-tensor `ValueError` is raised exactly when
the input has zero elements and no negative histogram is supplied; it is never
raised for a non-empty input, nor when a negative histogram is supplied. -/
theorem compute_histogram_embedding_empty_guard {colorBits : ℕ} {E : Type}
    (encode : HistoTensor colorBits → List E) (x : HistoTensor colorBits) :
    (compute_histogram_embedding encode x none = .error .valueEmpty ↔ x.numel = 0) ∧
    (∀ n, compute_histogram_embedding encode x (some n) ≠ .error .valueEmpty) := by
  constructor
  · by_cases h : x.numel = 0
    · simp [compute_histogram_embedding, h]
    · simp [compute_histogram_embedding, h]
  · intro n
    by_cases h : x.batch = n.batch ∧ x.numel = 1
    · by_cases he : x.entries = n.entries
      · simp [compute_histogram_embedding, tensorIfTruthyEq, h, he]
      · simp [compute_histogram_embedding, tensorIfTruthyEq, h, he]
    · simp [compute_histogram_embedding, tensorIfTruthyEq, h]

/-- Concrete non-empty histogram of shape `(1, 2, 2, 2)` (`color_bits = 1`). -/
def witnessHisto : HistoTensor 1 := ⟨1, fun _ _ _ _ => 1 / 8⟩

/-- Concrete empty histogram of shape `(0, 2, 2, 2)`. -/
def witnessHistoEmpty : HistoTensor 1 := ⟨0, fun b _ _ _ => b.elim0⟩

/-- Concrete shape-level encoder used by witnesses (returns one token row per
batch element, here its index count). -/
def witnessEncode (t : HistoTensor 1) : List ℕ := [t.batch]

/-- Witness for C7: the guard fires on the concrete empty tensor and does not
fire on the concrete non-empty one. -/
theorem compute_histogram_embedding_empty_guard_witness :
    (compute_histogram_embedding witnessEncode witnessHistoEmpty none = .error .valueEmpty ↔
      witnessHistoEmpty.numel = 0) ∧
    (compute_histogram_embedding witnessEncode witnessHisto none = .error .valueEmpty ↔
      witnessHisto.numel = 0) ∧
    compute_histogram_embedding witnessEncode witnessHisto (some witnessHisto) ≠
      .error .valueEmpty :=
  ⟨(compute_histogram_embedding_empty_guard witnessEncode witnessHistoEmpty).1,
   (compute_histogram_embedding_empty_guard witnessEncode witnessHisto).1,
   (compute_histogram_embedding_empty_guard witnessEncode witnessHisto).2 witnessHisto⟩

/-- Claim C4 (code evaluation).  Supplying a negative histogram makes
`compute_histogram_embedding` raise the tensor-truthiness `RuntimeError` at
`if x == negative_histogram:` instead of returning the concatenated
unconditional/conditional pair: here at the concrete pair of equal non-empty
`(1, 2, 2, 2)` histograms. -/
theorem compute_histogram_embedding_negative_raises :
    compute_histogram_embedding witnessEncode witnessHisto (some witnessHisto) =
      .error .runtimeAmbiguous := rfl

/-- Per-batch-element total mass of a histogram tensor. -/
def HistoTensor.binMass {colorBits : ℕ} (x : HistoTensor colorBits) (b : Fin x.batch) : ℚ :=
  ∑ k : Bin colorBits, x.val b k.1 k.2.1 k.2.2

/-- Claim C9.  The synthesized uniform fallback fills every bin with
`1 / x.numel()` where `numel` counts the batch dimension too, so each batch
element of the fallback has total mass `1 / batch`, which equals `1.0` exactly
when the batch has one element; and the `None` branch of
`compute_histogram_embedding` returns the fallback's embedding concatenated
with the conditional one. -/
theorem uniform_fallback_mass {colorBits : ℕ} {E : Type}
    (encode : HistoTensor colorBits → List E) (x : HistoTensor colorBits)
    (hB : 0 < x.batch) :
    (∀ b r g bb, (uniformFallback x).val b r g bb = 1 / (x.numel : ℚ)) ∧
    (∀ b : Fin (uniformFallback x).batch,
      (uniformFallback x).binMass b = 1 / (x.batch : ℚ)) ∧
    ((1 : ℚ) / (x.batch : ℚ) = 1 ↔ x.batch = 1) ∧
    compute_histogram_embedding encode x none =
      .ok (encode (uniformFallback x) ++ encode x) := by
  have hnumel : x.numel = x.batch * numBins colorBits ^ 3 := rfl
  have hNpos := numBins_pos colorBits
  have hNne : ((numBins colorBits : ℕ) : ℚ) ≠ 0 := by exact_mod_cast hNpos.ne'
  have hBne : ((x.batch : ℕ) : ℚ) ≠ 0 := by exact_mod_cast hB.ne'
  refine ⟨?_, ?_, ?_, ?_⟩
  · intro b r g bb
    simp only [uniformFallback]
    norm_num
  · intro b
    simp only [HistoTensor.binMass, uniformFallback]
    rw [Finset.sum_const, Finset.card_univ]
    simp only [Fintype.card_prod, Fintype.card_fin]
    rw [nsmul_eq_mul, hnumel]
    push_cast
    field_simp
    ring
  · constructor
    · intro h
      have := (div_eq_one_iff_eq hBne).mp h
      exact_mod_cast this.symm
    · intro h
      rw [h]
      norm_num
  · have hne0 : ¬ x.numel = 0 := by
      rw [hnumel]
      positivity
    simp [compute_histogram_embedding, hne0]

/-- Witness for C9 at the concrete `(1, 2, 2, 2)` histogram. -/
theorem uniform_fallback_mass_witness :
    ((uniformFallback witnessHisto).val ⟨0, Nat.one_pos⟩ (lowBin 1).1 (lowBin 1).2.1
        (lowBin 1).2.2 = 1 / (witnessHisto.numel : ℚ)) ∧
    ((uniformFallback witnessHisto).binMass ⟨0, Nat.one_pos⟩ = 1 / (witnessHisto.batch : ℚ)) ∧
    ((1 : ℚ) / (witnessHisto.batch : ℚ) = 1 ↔ witnessHisto.batch = 1) ∧
    compute_histogram_embedding witnessEncode witnessHisto none =
      .ok (witnessEncode (uniformFallback witnessHisto) ++ witnessEncode witnessHisto) :=
  ⟨(uniform_fallback_mass witnessEncode witnessHisto Nat.one_pos).1 _ _ _ _,
   (uniform_fallback_mass witnessEncode witnessHisto Nat.one_pos).2.1 _,
   (uniform_fallback_mass witnessEncode witnessHisto Nat.one_pos).2.2.1,
   (uniform_fallback_mass witnessEncode witnessHisto Nat.one_pos).2.2.2⟩

/-- One named context: a key-value mapping from string keys to tensors
(embeddings modelled as flat lists of rationals). -/
def ContextDict := List (String × List ℚ)

/-- The whole shared conditioning state: a mapping from context namespaces to
their dictionaries. -/
def Contexts := List (String × ContextDict)

/-- Modelled from the spec: the base framework's named shared-context facility
(`refiners.fluxion` context provider, not under `src/`).  Per §3, the
conditioning context is scoped to one forward invocation and is overwritten by
the orchestrator's write: `set_context(name, mapping)` installs `mapping` as
the dictionary of namespace `name`. -/
def set_context (name : String) (d : ContextDict) (cs : Contexts) : Contexts :=
  (name, d) :: cs.filter fun p => p.1 ≠ name

/-- Modelled from the spec: `fl.UseContext(context, key)` reads one key of one
named context, `none` when absent (a missing key is a hard error per §5). -/
def use_context (name key : String) (cs : Contexts) : Option (List ℚ) :=
  match cs.lookup name with
  | none => none
  | some d => d.lookup key

/-- `SD1HistogramAdapter.set_histogram_embedding`:
`self.set_context("ip_adapter", {"clip_image_embedding": histogram_embedding})`. -/
def set_histogram_embedding (emb : List ℚ) (cs : Contexts) : Contexts :=
  set_context "ip_adapter" [("clip_image_embedding", emb)] cs

/-- The context read performed by both branches of `HistogramCrossAttention`:
`fl.UseContext(context="ip_adapter", key="palette_embedding")`. -/
def histogram_branch_context_read (cs : Contexts) : Option (List ℚ) :=
  use_context "ip_adapter" "palette_embedding" cs

/-- Claim C1 (code evaluation).  After the orchestrator's
`set_histogram_embedding`, the key read by the `HistogramCrossAttention`
branches holds nothing: the orchestrator writes `"clip_image_embedding"` while
the branches read `"palette_embedding"`, so no embedding `e` is ever seen by
the histogram branch, whatever the prior context contents. -/
theorem set_histogram_embedding_key_mismatch :
    ∀ (emb : List ℚ) (cs : Contexts),
      histogram_branch_context_read (set_histogram_embedding emb cs) = none := by
  intro emb cs
  rfl

/-- The exact Python class of an attention layer yielded by
`target.layers(fl.Attention)`. -/
inductive PyAttnClass where
  | attention : PyAttnClass
  | selfAttention : PyAttnClass
deriving DecidableEq

/-- One attention layer of the target UNet, identified by its position. -/
structure AttnLayer where
  id : ℕ
  cls : PyAttnClass
deriving DecidableEq

/-- The Python class of a constructed sub-adapter. -/
inductive AdapterClass where
  /-- `refiners.foundationals.latent_diffusion.image_prompt.CrossAttentionAdapter`. -/
  | crossAttentionAdapter : AdapterClass
  /-- `refiners.fluxion.adapters.histogram.HistogramCrossAttentionAdapter`. -/
  | histogramCrossAttentionAdapter : AdapterClass
deriving DecidableEq

/-- A constructed sub-adapter: its class and the id of its target layer. -/
structure SubAdapterInst where
  cls : AdapterClass
  target : ℕ
deriving DecidableEq

/-- `SD1HistogramAdapter.__init__` sub-adapter construction:
`[CrossAttentionAdapter(target=cross_attn, scale=scale) for cross_attn in
filter(lambda attn: type(attn) != fl.SelfAttention, target.layers(fl.Attention))]` —
note the constructed class is the image-prompt `CrossAttentionAdapter`. -/
def sd1_sub_adapters (layers : List AttnLayer) : List SubAdapterInst :=
  (layers.filter fun a => a.cls ≠ PyAttnClass.selfAttention).map fun a =>
    ⟨AdapterClass.crossAttentionAdapter, a.id⟩

/-- Claim C5 (counterexample).  On a UNet with a single non-self-attention
layer, the constructor builds one sub-adapter, and its class is the
image-prompt `CrossAttentionAdapter`, not `HistogramCrossAttentionAdapter`:
the claim as stated is false. -/
theorem sd1_sub_adapters_not_histogram_class :
    sd1_sub_adapters [⟨0, PyAttnClass.attention⟩] =
      [⟨AdapterClass.crossAttentionAdapter, 0⟩] ∧
    AdapterClass.crossAttentionAdapter ≠ AdapterClass.histogramCrossAttentionAdapter := by
  constructor
  · rfl
  · decide

theorem sd1_sub_adapters_cons (b : AttnLayer) (t : List AttnLayer) :
    sd1_sub_adapters (b :: t) =
      if b.cls = PyAttnClass.selfAttention then sd1_sub_adapters t
      else ⟨AdapterClass.crossAttentionAdapter, b.id⟩ :: sd1_sub_adapters t := by
  unfold sd1_sub_adapters
  rw [List.filter_cons]
  by_cases hb : b.cls = PyAttnClass.selfAttention
  · simp [hb]
  · simp [hb]

/-- Every constructed sub-adapter targets the id of some source layer. -/
theorem sd1_sub_adapters_target_mem {t : List AttnLayer} {s : SubAdapterInst}
    (hs : s ∈ sd1_sub_adapters t) : s.target ∈ t.map AttnLayer.id := by
  unfold sd1_sub_adapters at hs
  rw [List.mem_map] at hs
  obtain ⟨a2, ha2, rfl⟩ := hs
  exact List.mem_map_of_mem _ (List.mem_of_mem_filter ha2)

/-- Exactly one sub-adapter per non-self-attention layer, none per
self-attention layer, for distinct layer identities. -/
theorem sd1_count_of_nodup (layers : List AttnLayer)
    (hnd : (layers.map AttnLayer.id).Nodup) (a : AttnLayer) (ha : a ∈ layers) :
    (sd1_sub_adapters layers).countP (fun s => decide (s.target = a.id)) =
      if a.cls = PyAttnClass.selfAttention then 0 else 1 := by
  induction layers with
  | nil => cases ha
  | cons b t ih =>
    rw [List.map_cons, List.nodup_cons] at hnd
    rw [sd1_sub_adapters_cons]
    rcases List.mem_cons.mp ha with rfl | hat
    · have hzero : (sd1_sub_adapters t).countP (fun s => decide (s.target = a.id)) = 0 := by
        rw [List.countP_eq_zero]
        intro s hs
        have hmem := sd1_sub_adapters_target_mem hs
        simp only [decide_eq_true_eq]
        intro he
        exact hnd.1 (he ▸ hmem)
      by_cases hc : a.cls = PyAttnClass.selfAttention
      · rw [if_pos hc, if_pos hc, hzero]
      · rw [if_neg hc, if_neg hc, List.countP_cons, hzero]
        simp
    · have hbne : b.id ≠ a.id := fun he => hnd.1 (he ▸ List.mem_map_of_mem AttnLayer.id hat)
      by_cases hc : b.cls = PyAttnClass.selfAttention
      · rw [if_pos hc]
        exact ih hnd.2 hat
      · rw [if_neg hc, List.countP_cons, ih hnd.2 hat]
        simp [hbne]

/-- Claim C5 (amended).  For a target whose attention layers have distinct
identities, the constructor builds exactly one sub-adapter for each attention
layer that is not a pure self-attention layer and none for a self-attention
layer, and every sub-adapter it builds is an image-prompt
`CrossAttentionAdapter`. -/
theorem sd1_sub_adapters_one_per_cross_layer (layers : List AttnLayer)
    (hnd : (layers.map AttnLayer.id).Nodup) (a : AttnLayer) (ha : a ∈ layers) :
    ((sd1_sub_adapters layers).countP (fun s => decide (s.target = a.id)) =
      if a.cls = PyAttnClass.selfAttention then 0 else 1) ∧
    (∀ s ∈ sd1_sub_adapters layers, s.cls = AdapterClass.crossAttentionAdapter) := by
  constructor
  · exact sd1_count_of_nodup layers hnd a ha
  · intro s hs
    unfold sd1_sub_adapters at hs
    rw [List.mem_map] at hs
    obtain ⟨a2, -, rfl⟩ := hs
    rfl

/-- Witness for the amended C5 on a concrete two-layer UNet: the cross layer
gets exactly one image-prompt sub-adapter and the self-attention layer none. -/
theorem sd1_sub_adapters_one_per_cross_layer_witness :
    (((sd1_sub_adapters [⟨0, PyAttnClass.attention⟩, ⟨1, PyAttnClass.selfAttention⟩]).countP
        (fun s => decide (s.target = 0)) = 1) ∧
      (∀ s ∈ sd1_sub_adapters [⟨0, PyAttnClass.attention⟩, ⟨1, PyAttnClass.selfAttention⟩],
        s.cls = AdapterClass.crossAttentionAdapter)) ∧
    ((sd1_sub_adapters [⟨0, PyAttnClass.attention⟩, ⟨1, PyAttnClass.selfAttention⟩]).countP
        (fun s => decide (s.target = 1)) = 0) :=
  ⟨sd1_sub_adapters_one_per_cross_layer
      [⟨0, PyAttnClass.attention⟩, ⟨1, PyAttnClass.selfAttention⟩] (by decide)
      ⟨0, PyAttnClass.attention⟩ (by decide),
   (sd1_sub_adapters_one_per_cross_layer
      [⟨0, PyAttnClass.attention⟩, ⟨1, PyAttnClass.selfAttention⟩] (by decide)
      ⟨1, PyAttnClass.selfAttention⟩ (by decide)).1⟩

/-- Parameter-tensor identities of one sub-adapter: the two newly introduced
projection weights, `adapter.weights = [image_key_projection.weight,
image_value_projection.weight]` (as in the in-src
`HistogramCrossAttentionAdapter.weights`; modelled from the spec for the
image-prompt `CrossAttentionAdapter` actually instantiated, whose `weights`
property is not under `src/`).  Identity is Python object identity. -/
structure SubAdapterTensors where
  keyW : ℕ
  valueW : ℕ

/-- The tensor ownership structure of `SD1HistogramAdapter`: the histogram
encoder (held in the plain one-element list `_histogram_encoder`, outside
module registration), the wrapped UNet's original weights, and the
sub-adapters' new projection weights. -/
structure SD1AdapterTensors where
  encoderParams : List ℕ
  unetParams : List ℕ
  subs : List SubAdapterTensors

/-- Tensor storage: each tensor id holds its flat data. -/
def TensorStore := ℕ → List ℚ

/-- `SD1HistogramAdapter.weights`: the concatenation of every sub-adapter's
`weights` list, in sub-adapter order. -/
def sd1_weights (A : SD1AdapterTensors) : List ℕ :=
  A.subs.flatMap fun s => [s.keyW, s.valueW]

/-- `SD1HistogramAdapter.zero_init`: `init.zeros_` applied in place to exactly
the tensors in `self.weights` (shape kept, values zeroed). -/
def sd1_zero_init (A : SD1AdapterTensors) (σ : TensorStore) : TensorStore :=
  fun i => if i ∈ sd1_weights A then (σ i).map (fun _ => 0) else σ i

/-- Claim C10.  `weights` names only the sub-adapters' projection tensors, and
`zero_init` zeroes exactly those: for tensor identities of the encoder and the
UNet distinct from the new projections (distinct Python parameter objects),
their stored values are unchanged, while every tensor of `weights` is zeroed. -/
theorem sd1_zero_init_frame (A : SD1AdapterTensors) (σ : TensorStore)
    (hdisj : ∀ i ∈ A.encoderParams ++ A.unetParams, i ∉ sd1_weights A) :
    (∀ i ∈ sd1_weights A, ∃ s ∈ A.subs, i = s.keyW ∨ i = s.valueW) ∧
    (∀ i ∈ A.encoderParams ++ A.unetParams, sd1_zero_init A σ i = σ i) ∧
    (∀ i ∈ sd1_weights A, sd1_zero_init A σ i = (σ i).map (fun _ => 0)) := by
  refine ⟨?_, ?_, ?_⟩
  · intro i hi
    unfold sd1_weights at hi
    rw [List.mem_flatMap] at hi
    obtain ⟨s, hs, hmem⟩ := hi
    refine ⟨s, hs, ?_⟩
    rcases List.mem_cons.mp hmem with h | h
    · exact Or.inl h
    · exact Or.inr (by simpa using h)
  · intro i hi
    unfold sd1_zero_init
    rw [if_neg (hdisj i hi)]
  · intro i hi
    unfold sd1_zero_init
    rw [if_pos hi]

/-- Concrete adapter tensor layout for the C10 witness: one encoder tensor,
one UNet tensor, one sub-adapter with two fresh projection tensors. -/
def witnessTensors : SD1AdapterTensors := ⟨[0], [1], [⟨2, 3⟩]⟩

/-- Concrete store: tensor `i` holds `[i+1]`. -/
def witnessStore : TensorStore := fun i => [(i : ℚ) + 1]

/-- Witness for C10 at the concrete layout. -/
theorem sd1_zero_init_frame_witness :
    (∀ i ∈ sd1_weights witnessTensors,
      ∃ s ∈ witnessTensors.subs, i = s.keyW ∨ i = s.valueW) ∧
    (∀ i ∈ witnessTensors.encoderParams ++ witnessTensors.unetParams,
      sd1_zero_init witnessTensors witnessStore i = witnessStore i) ∧
    (∀ i ∈ sd1_weights witnessTensors,
      sd1_zero_init witnessTensors witnessStore i = (witnessStore i).map (fun _ => 0)) :=
  sd1_zero_init_frame witnessTensors witnessStore (by decide)

/-- The method and attribute names that the class body of `HistogramExtractor`
(`src/.../histogram.py`, its full definition) introduces: its constructor,
the stored `color_bits`, and the batched `histogramdd` forward lambda. -/
def histogramExtractorAttributes : List String := ["__init__", "color_bits", "histogramdd"]

/-- The attribute the training code (`trainers/histogram.py`, `compute_loss`
and `eval_indices`) and the tests (`test_images_histogram_extractor`) invoke
on a `HistogramExtractor` instance. -/
def imagesToHistogramsCallee : String := "images_to_histograms"

/-- Claim C8 (code evaluation).  The no-batch convenience entry point invoked
by trainer and tests is absent from the `HistogramExtractor` class: calling it
fails with an `AttributeError`. -/
theorem histogram_extractor_missing_entry_point :
    histogramExtractorAttributes.count imagesToHistogramsCallee = 0 := by
  decide

/-- A rational matrix indexed by `Fin` shapes. -/
abbrev Mat (m n : ℕ) := Fin m → Fin n → ℚ

/-- Modelled from the spec: `fl.Linear` (base framework, not under `src/`),
`y = x Wᵀ + b` with an optional bias. -/
def linearT {s din dout : ℕ} (W : Mat dout din) (b : Option (Fin dout → ℚ))
    (x : Mat s din) : Mat s dout :=
  fun i o => (∑ k, x i k * W o k) + (match b with | none => 0 | some bv => bv o)

/-- Softmax of one row of logits, with the transcendental exponential kept as
the parameter `expf`; every theorem below quantifies over `expf`. -/
def softmaxRow (expf : ℚ → ℚ) {n : ℕ} (l : Fin n → ℚ) (j : Fin n) : ℚ :=
  expf (l j) / ∑ k, expf (l k)

/-- Single-head scaled-dot-product attention `softmax(sf · Q Kᵀ) V`, with the
logit scale `sf` (the `1/sqrt d` factor) as a parameter. -/
def sdpaHead (expf : ℚ → ℚ) (sf : ℚ) {sq skv d : ℕ}
    (Q : Mat sq d) (K V : Mat skv d) : Mat sq d :=
  fun i j => ∑ k, softmaxRow expf (fun k2 => sf * ∑ l2, Q i l2 * K k2 l2) k * V k j

theorem slice_idx_lt {heads dh : ℕ} (h : Fin heads) (j : Fin dh) :
    h.val * dh + j.val < heads * dh := by
  have hj := j.isLt
  have hh := h.isLt
  calc h.val * dh + j.val < h.val * dh + dh := by omega
    _ = (h.val + 1) * dh := by ring
    _ ≤ heads * dh := Nat.mul_le_mul_right dh hh

/-- The per-head view of a `(seq, heads*dh)` tensor (the head split of
`ScaledDotProductAttention`). -/
def headSlice {s heads dh : ℕ} (M : Mat s (heads * dh)) (h : Fin heads) : Mat s dh :=
  fun i j => M i ⟨h.val * dh + j.val, slice_idx_lt h j⟩

/-- Merging per-head outputs back into a `(seq, heads*dh)` tensor. -/
def headMerge {s heads dh : ℕ} (f : Fin heads → Mat s dh) : Mat s (heads * dh) :=
  fun i o =>
    f ⟨o.val / dh, by
        have ho := o.isLt
        rcases Nat.eq_zero_or_pos dh with h0 | h0
        · exact absurd ho (by simp [h0])
        · exact (Nat.div_lt_iff_lt_mul h0).mpr (by omega)⟩
      i
      ⟨o.val % dh, by
        have ho := o.isLt
        rcases Nat.eq_zero_or_pos dh with h0 | h0
        · exact absurd ho (by simp [h0])
        · exact Nat.mod_lt _ h0⟩

/-- Modelled from the spec: `ScaledDotProductAttention(num_heads, ...)`
(`refiners.fluxion.layers.attentions`, not under `src/`): split the inner
dimension into heads, attend per head, merge. -/
def sdpaModule (expf : ℚ → ℚ) (sf : ℚ) {sq skv heads dh : ℕ}
    (Q : Mat sq (heads * dh)) (K V : Mat skv (heads * dh)) : Mat sq (heads * dh) :=
  headMerge fun h => sdpaHead expf sf (headSlice Q h) (headSlice K h) (headSlice V h)

/-- Entrywise sum (`fl.Sum` of two branch outputs). -/
def matAdd {m n : ℕ} (X Y : Mat m n) : Mat m n := fun i j => X i j + Y i j

/-- Scalar multiple (`fl.Multiply(scale)`). -/
def matScale {m n : ℕ} (c : ℚ) (M : Mat m n) : Mat m n := fun i j => c * M i j

/-- Modelled from the spec: `fl.Attention` (base framework, not under `src/`):
query/key/value projections with optional biases, multi-head
scaled-dot-product attention, output projection.  SD1 cross-attention layers
are non-causal, so no causal mask appears. -/
structure Attn (heads dh dq dkv : ℕ) where
  Wq : Mat (heads * dh) dq
  bq : Option (Fin (heads * dh) → ℚ)
  Wk : Mat (heads * dh) dkv
  bk : Option (Fin (heads * dh) → ℚ)
  Wv : Mat (heads * dh) dkv
  bv : Option (Fin (heads * dh) → ℚ)
  Wo : Mat dq (heads * dh)
  bo : Option (Fin dq → ℚ)

/-- The forward pass of the unadapted attention layer. -/
def attnForward (expf : ℚ → ℚ) (sf : ℚ) {heads dh dq dkv sq skv : ℕ}
    (L : Attn heads dh dq dkv) (xq : Mat sq dq) (xkv : Mat skv dkv) : Mat sq dq :=
  linearT L.Wo L.bo
    (sdpaModule expf sf (linearT L.Wq L.bq xq) (linearT L.Wk L.bk xkv)
      (linearT L.Wv L.bv xkv))

/-- One adapted cross-attention layer, per the in-src
`HistogramCrossAttentionAdapter`: the structural copy `base` (sharing the
target's weight values), the two new `Linear(in_features=4,
out_features=inner_dim, bias=use_bias)` projections of the
`HistogramCrossAttention` branch (bias present exactly when the wrapped
layer's `use_bias` is set, hence the `Option` bias fields), and the branch
scale. -/
structure HistCrossAttnAdapter (heads dh dq dkv : ℕ) where
  base : Attn heads dh dq dkv
  Whk : Mat (heads * dh) 4
  hbk : Option (Fin (heads * dh) → ℚ)
  Whv : Mat (heads * dh) 4
  hbv : Option (Fin (heads * dh) → ℚ)
  scale : ℚ

/-- `HistogramCrossAttention` applied at the spliced
`fl.Sum(scaled_dot_product, histogram_cross_attention)` node: the query input
of the node together with the context embedding projected into key/value,
attended with the wrapped layer's head configuration, times the scale. -/
def histogram_cross_attention (expf : ℚ → ℚ) (sf : ℚ) {heads dh dq dkv sq se : ℕ}
    (A : HistCrossAttnAdapter heads dh dq dkv) (q : Mat sq (heads * dh))
    (emb : Mat se 4) : Mat sq (heads * dh) :=
  matScale A.scale
    (sdpaModule expf sf q (linearT A.Whk A.hbk emb) (linearT A.Whv A.hbv emb))

/-- The adapted layer's forward pass: the clone's projections feed the sum of
the original scaled-dot-product branch and the histogram branch, then the
clone's output projection. -/
def adapted_attention_forward (expf : ℚ → ℚ) (sf : ℚ) {heads dh dq dkv sq skv se : ℕ}
    (A : HistCrossAttnAdapter heads dh dq dkv) (xq : Mat sq dq) (xkv : Mat skv dkv)
    (emb : Mat se 4) : Mat sq dq :=
  linearT A.base.Wo A.base.bo
    (matAdd
      (sdpaModule expf sf (linearT A.base.Wq A.base.bq xq)
        (linearT A.base.Wk A.base.bk xkv) (linearT A.base.Wv A.base.bv xkv))
      (histogram_cross_attention expf sf A (linearT A.base.Wq A.base.bq xq) emb))

/-- `init.zeros_` over one sub-adapter's `weights`
(`[image_key_projection.weight, image_value_projection.weight]`): both new
projection weights zeroed in place, everything else untouched. -/
def zero_init_layer {heads dh dq dkv : ℕ} (A : HistCrossAttnAdapter heads dh dq dkv) :
    HistCrossAttnAdapter heads dh dq dkv :=
  { A with Whk := fun _ _ => 0, Whv := fun _ _ => 0 }

theorem linearT_zero_nobias {s din dout : ℕ} (x : Mat s din) :
    linearT ((fun _ _ => (0 : ℚ)) : Mat dout din) none x = fun _ _ => (0 : ℚ) := by
  funext i o
  simp [linearT]

theorem sdpaModule_zeroV (expf : ℚ → ℚ) (sf : ℚ) {sq skv heads dh : ℕ}
    (Q : Mat sq (heads * dh)) (K : Mat skv (heads * dh)) :
    sdpaModule expf sf Q K (fun _ _ => 0) = fun _ _ => (0 : ℚ) := by
  funext i o
  simp [sdpaModule, headMerge, sdpaHead, headSlice]

/-- The zero-initialized adapted layer computes exactly the original layer's
function, for bias-free new projections (SD1's `use_bias=False`). -/
theorem adapted_layer_noop {heads dh dq dkv : ℕ}
    (A : HistCrossAttnAdapter heads dh dq dkv)
    (hk : A.hbk = none) (hv : A.hbv = none)
    (expf : ℚ → ℚ) (sf : ℚ) {sq skv se : ℕ}
    (xq : Mat sq dq) (xkv : Mat skv dkv) (emb : Mat se 4) :
    adapted_attention_forward expf sf (zero_init_layer A) xq xkv emb =
      attnForward expf sf A.base xq xkv := by
  unfold adapted_attention_forward attnForward histogram_cross_attention zero_init_layer
  simp only [hk, hv]
  rw [linearT_zero_nobias emb, sdpaModule_zeroV]
  have hsc : matScale A.scale ((fun _ _ => (0 : ℚ)) : Mat sq (heads * dh)) =
      ((fun _ _ => (0 : ℚ)) : Mat sq (heads * dh)) := by
    funext i j
    simp [matScale]
  rw [hsc]
  have hadd : ∀ (M : Mat sq (heads * dh)),
      matAdd M ((fun _ _ => (0 : ℚ)) : Mat sq (heads * dh)) = M := by
    intro M
    funext i j
    simp [matAdd]
  rw [hadd]

/-- One sub-adapter with its layer dimensions, for the heterogeneous list of
`SD1HistogramAdapter.sub_adapters`. -/
structure SubAdapterPack where
  heads : ℕ
  dh : ℕ
  dq : ℕ
  dkv : ℕ
  adapter : HistCrossAttnAdapter heads dh dq dkv

/-- `SD1HistogramAdapter.zero_init`: `init.zeros_` on every weight of every
sub-adapter. -/
def zero_init_all (subs : List SubAdapterPack) : List SubAdapterPack :=
  subs.map fun p => { p with adapter := zero_init_layer p.adapter }

/-- Claim C2.  After `zero_init()` every injected sub-adapter layer computes
numerically the same function as the original (pre-injection) layer on every
input, so the adapted UNet — which differs from the original network exactly
at these spliced layers — reproduces the pre-injection output; stated for
bias-free new projections (the wrapped SD1 layers use `use_bias=False`) and
for every value of the softmax exponential and logit scale. -/
theorem sd1_zero_init_noop (subs : List SubAdapterPack)
    (hb : ∀ p ∈ subs, p.adapter.hbk = none ∧ p.adapter.hbv = none) :
    ∀ p ∈ zero_init_all subs, ∀ (expf : ℚ → ℚ) (sf : ℚ) (sq skv se : ℕ)
      (xq : Mat sq p.dq) (xkv : Mat skv p.dkv) (emb : Mat se 4),
      adapted_attention_forward expf sf p.adapter xq xkv emb =
        attnForward expf sf p.adapter.base xq xkv := by
  intro p hp expf sf sq skv se xq xkv emb
  unfold zero_init_all at hp
  rw [List.mem_map] at hp
  obtain ⟨p0, hp0, rfl⟩ := hp
  exact adapted_layer_noop p0.adapter (hb p0 hp0).1 (hb p0 hp0).2 expf sf xq xkv emb

/-- Concrete wrapped attention layer for the C2 witness. -/
def witnessAttn : Attn 1 1 1 1 :=
  ⟨fun _ _ => 1, none, fun _ _ => 1, none, fun _ _ => 1, none, fun _ _ => 1, none⟩

/-- Concrete sub-adapter with nonzero fresh projections before `zero_init`. -/
def witnessAdapter : HistCrossAttnAdapter 1 1 1 1 :=
  ⟨witnessAttn, fun _ _ => 5, none, fun _ _ => 7, none, 2⟩

/-- Concrete pack. -/
def witnessPack : SubAdapterPack := ⟨1, 1, 1, 1, witnessAdapter⟩

/-- Concrete stand-in for the softmax exponential. -/
def witnessExp : ℚ → ℚ := fun v => 1 + v

/-- Concrete one-entry matrix. -/
def oneMat : Mat 1 1 := fun _ _ => 1

/-- Concrete context embedding. -/
def witnessEmb : Mat 1 4 := fun _ _ => 1

/-- Witness for C2 at concrete weights and inputs. -/
theorem sd1_zero_init_noop_witness :
    adapted_attention_forward witnessExp (1 / 2) (zero_init_layer witnessAdapter)
        oneMat oneMat witnessEmb =
      attnForward witnessExp (1 / 2) witnessAdapter.base oneMat oneMat :=
  sd1_zero_init_noop [witnessPack]
    (by
      intro p hp
      rw [List.mem_singleton] at hp
      subst hp
      exact ⟨rfl, rfl⟩)
    _ (List.mem_map_of_mem
        (fun p => { p with adapter := zero_init_layer p.adapter })
        (List.mem_singleton_self witnessPack))
    witnessExp (1 / 2) 1 1 1 oneMat oneMat witnessEmb

end HistogramSpec
